import Mathlib

/-!
Verification of the session-log HTTP server (`serve.js`).

The development shallowly embeds the program's core logic:
  * `escapeHtml`, `parseLogName`, `buildIndex` and the request handler are
    translated function-by-function from the source;
  * JavaScript string primitives used by the source (`String.prototype.replace`
    with a string pattern, `trim`, the default `Array.prototype.sort`
    comparator over UTF-16 code units, `decodeURIComponent`,
    `path.basename`) are modelled explicitly;
  * the regular expression
    `^(\d{4}-\d{2}-\d{2})-(?:(\d{4})-)?(\w+?)(?:-subagent-(.+)-(\w+))?$`
    is embedded as a deterministic backtracking matcher that follows the
    regex engine's preference order (greedy optional groups tried
    present-first, the lazy `\w+?` tried shortest-first, greedy `.+` tried
    longest-first).
-/

/-- JS `\d`: the ASCII digits `0`-`9`. -/
def isDigitChar (c : Char) : Bool :=
  48 ≤ c.toNat && c.toNat ≤ 57

/-- JS `\w`: ASCII letters, digits and underscore. -/
def isWordChar (c : Char) : Bool :=
  (65 ≤ c.toNat && c.toNat ≤ 90) || (97 ≤ c.toNat && c.toNat ≤ 122) ||
    (48 ≤ c.toNat && c.toNat ≤ 57) || c.toNat == 95

/-- JS `.` without the `s` flag: any character except the four line
terminators LF, CR, U+2028, U+2029. -/
def isDotChar (c : Char) : Bool :=
  !(c.toNat == 10 || c.toNat == 13 || c.toNat == 0x2028 || c.toNat == 0x2029)

/-- The JS whitespace set used by `String.prototype.trim`. -/
def jsIsWs (c : Char) : Bool :=
  c.toNat == 32 || c.toNat == 9 || c.toNat == 10 || c.toNat == 13 ||
    c.toNat == 11 || c.toNat == 12 || c.toNat == 0xA0 || c.toNat == 0x1680 ||
    (0x2000 ≤ c.toNat && c.toNat ≤ 0x200A) || c.toNat == 0x2028 ||
    c.toNat == 0x2029 || c.toNat == 0x202F || c.toNat == 0x205F ||
    c.toNat == 0x3000 || c.toNat == 0xFEFF

/-- JS `String.prototype.trim`: strip JS whitespace from both ends. -/
def jsTrim (s : String) : String :=
  ⟨((s.data.dropWhile jsIsWs).reverse.dropWhile jsIsWs).reverse⟩

/-- Index of the first occurrence of `pat` in `l`, as used by JS
`String.prototype.replace` with a string pattern (`String.indexOf`). -/
def firstOcc (pat : List Char) : List Char → Option Nat
  | [] => if pat.isPrefixOf [] then some 0 else none
  | c :: cs =>
    if pat.isPrefixOf (c :: cs) then some 0
    else (firstOcc pat cs).map (· + 1)

/-- JS `GetSubstitution` for a string pattern: expand the replacement
patterns recognised in the replacement text — the dollar escapes for a
dollar sign, the matched substring, and the text before and after the
match.  With a string pattern there are no capture groups, so everything
else is copied literally. -/
def substDollar (matched before after : List Char) : List Char → List Char
  | [] => []
  | [c] => [c]
  | c :: d :: rest2 =>
    if c == '$' then
      if d == '$' then '$' :: substDollar matched before after rest2
      else if d == '&' then matched ++ substDollar matched before after rest2
      else if d == Char.ofNat 96 then before ++ substDollar matched before after rest2
      else if d == Char.ofNat 39 then after ++ substDollar matched before after rest2
      else c :: substDollar matched before after (d :: rest2)
    else c :: substDollar matched before after (d :: rest2)

/-- JS `s.replace(pat, rep)` for a plain string pattern: replace the first
occurrence of `pat` (if any) by `rep`, with `rep` processed by
`GetSubstitution`. -/
def jsReplaceFirst (s pat rep : String) : String :=
  match firstOcc pat.data s.data with
  | none => s
  | some i =>
    ⟨s.data.take i ++
      substDollar pat.data (s.data.take i) (s.data.drop (i + pat.data.length)) rep.data ++
      s.data.drop (i + pat.data.length)⟩

/-- Replace every occurrence of the single character `c` by `rep`
(one global single-character regex replace such as `/&/g`). -/
def replaceAllChar (c : Char) (rep : List Char) (l : List Char) : List Char :=
  (l.map (fun x => if x == c then rep else [x])).flatten

/-- `escapeHtml` from `serve.js`: four chained global replaces, ampersand
first, then the angle brackets, then the double quote. -/
def escapeHtml (text : String) : String :=
  ⟨replaceAllChar (Char.ofNat 34) ("&quot;".data)
    (replaceAllChar '>' ("&gt;".data)
      (replaceAllChar '<' ("&lt;".data)
        (replaceAllChar '&' ("&amp;".data) text.data)))⟩

/-- Substring test: does `pat` occur anywhere in `s`? -/
def strContains (s pat : String) : Bool := (firstOcc pat.data s.data).isSome

/-- JS `String.prototype.startsWith` with a string argument: prefix test. -/
def strStartsWith (s pat : String) : Bool := pat.data.isPrefixOf s.data

/-- JS `String.prototype.endsWith` with a string argument: suffix test. -/
def strEndsWith (s pat : String) : Bool := pat.data.reverse.isPrefixOf s.data.reverse

/-- JS `x || null` for a string-or-absent value: the empty string is falsy
and collapses to `null`. -/
def jsOrNull (o : Option String) : Option String :=
  match o with
  | some s => if s = "" then none else some s
  | none => none

/-! ### The filename grammar

The matcher below embeds the anchored regex
`^(\d{4}-\d{2}-\d{2})-(?:(\d{4})-)?(\w+?)(?:-subagent-(.+)-(\w+))?$`
from `parseLogName`, with the engine's backtracking order made explicit.
-/

/-- Match exactly `n` ASCII digits, returning them and the rest. -/
def takeDigits : Nat → List Char → Option (List Char × List Char)
  | 0, l => some ([], l)
  | _ + 1, [] => none
  | n + 1, c :: cs =>
    if isDigitChar c then (takeDigits n cs).map (fun p => (c :: p.1, p.2)) else none

/-- Match a literal dash. -/
def expectDash : List Char → Option (List Char)
  | '-' :: r => some r
  | _ => none

/-- Match the date group `\d{4}-\d{2}-\d{2}`, returning the captured
characters and the rest. -/
def matchDate (l : List Char) : Option (List Char × List Char) := do
  let (a, r1) ← takeDigits 4 l
  let r2 ← expectDash r1
  let (b, r3) ← takeDigits 2 r2
  let r4 ← expectDash r3
  let (c, r5) ← takeDigits 2 r4
  some (a ++ '-' :: b ++ '-' :: c, r5)

/-- Backtracking for `(.+)-(\w+)$` on `r`: the greedy `.+` is tried
longest-first, so splits are tried with the first captured part of length
`i` descending.  `(\w+)$` after a greedy `\w+` succeeds exactly when the
remainder is non-empty and all word characters. -/
def subSplitAux (r : List Char) : Nat → Option (List Char × List Char)
  | 0 => none
  | i + 1 =>
    if r[i + 1]? == some '-' && (r.take (i + 1)).all isDotChar &&
        !(r.drop (i + 2)).isEmpty && (r.drop (i + 2)).all isWordChar then
      some (r.take (i + 1), r.drop (i + 2))
    else subSplitAux r i

/-- Match `(.+)-(\w+)$` against all of `r`, greedy `.+` first. -/
def subSplit (r : List Char) : Option (List Char × List Char) :=
  subSplitAux r r.length

/-- Try the group `-subagent-(.+)-(\w+)` followed by `$`. -/
def trySubagent (l : List Char) : Option (List Char × List Char) :=
  if ("-subagent-".data).isPrefixOf l then subSplit (l.drop 10) else none

/-- Match `(?:-subagent-(.+)-(\w+))?$` at `l`.  The optional group is
greedy, so the sub-agent alternative is tried before the empty one; the
empty alternative succeeds only when `$` does, i.e. at the end of input.
`some (some (a, b))` is a match with the group, `some none` without. -/
def matchTail (l : List Char) : Option (Option (List Char × List Char)) :=
  match trySubagent l with
  | some ab => some (some ab)
  | none => if l.isEmpty then some none else none

/-- Match `(\w+?)(?:-subagent-(.+)-(\w+))?$`: the lazy `\w+?` consumes one
word character at a time, attempting the tail after each, shortest first.
Returns the session capture and the tail result. -/
def sessionAux (acc : List Char) : List Char → Option (List Char × Option (List Char × List Char))
  | [] => none
  | c :: rs =>
    if isWordChar c then
      match matchTail rs with
      | some tail => some (acc ++ [c], tail)
      | none => sessionAux (acc ++ [c]) rs
    else none

/-- Try the optional time group present: `(\d{4})-` followed by the session
and tail. -/
def withTime (l : List Char) : Option (List Char × (List Char × Option (List Char × List Char))) := do
  let (t, r1) ← takeDigits 4 l
  let r2 ← expectDash r1
  let res ← sessionAux [] r2
  some (t, res)

/-- The capture groups of the filename regex when it matches: `date` is
group 1, `time` group 2 (absent when the optional time group did not
participate), `session` group 3, `agentType` and `agentId` groups 4 and 5
(absent when the optional sub-agent group did not participate). -/
structure LogMatch where
  date : List Char
  time : Option (List Char)
  session : List Char
  agentType : Option (List Char)
  agentId : Option (List Char)
deriving DecidableEq, Repr

/-- Run the whole anchored regex at the start of `l`.  The greedy optional
time group is tried present-first; only if that whole branch fails is the
absent alternative tried. -/
def logRegexMatch (l : List Char) : Option LogMatch := do
  let (d, r1) ← matchDate l
  let r2 ← expectDash r1
  match withTime r2 with
  | some (t, (s, tail)) =>
    some ⟨d, some t, s, tail.map Prod.fst, tail.map Prod.snd⟩
  | none =>
    match sessionAux [] r2 with
    | some (s, tail) => some ⟨d, none, s, tail.map Prod.fst, tail.map Prod.snd⟩
    | none => none

/-- The record produced by `parseLogName`. -/
structure LogMeta where
  raw : String
  date : String
  time : String
  session : String
  agentType : Option String
  agentId : Option String
deriving DecidableEq, Repr

/-- `parseLogName` from `serve.js`: strip (the first occurrence of) `.md`,
run the filename regex, and either fall back to a raw-only record or build
the structured record, reformatting `HHMM` to `HH:MM` and collapsing empty
captures to null via `|| null`. -/
def parseLogName (filename : String) : LogMeta :=
  let name := jsReplaceFirst filename ".md" ""
  match logRegexMatch name.data with
  | none => ⟨name, "", "", "", none, none⟩
  | some m =>
    { raw := name
      date := ⟨m.date⟩
      time :=
        match m.time with
        | some t => if t.isEmpty then "" else (⟨t.take 2⟩ : String) ++ ":" ++ (⟨t.drop 2⟩ : String)
        | none => ""
      session := ⟨m.session⟩
      agentType := jsOrNull (m.agentType.map (⟨·⟩))
      agentId := jsOrNull (m.agentId.map (⟨·⟩)) }

/-! ### Index building -/

/-- The per-file HTML page template (`HTML_TEMPLATE` in `serve.js`), with
the placeholders `TITLE` and `CONTENT`. -/
def HTML_TEMPLATE : String := "<!DOCTYPE html>
<html lang=\"en\">
<head>
<meta charset=\"utf-8\">
<meta name=\"viewport\" content=\"width=device-width, initial-scale=1\">
<title>TITLE</title>
<link rel=\"stylesheet\" href=\"https://cdn.jsdelivr.net/npm/github-markdown-css@5/github-markdown-dark.min.css\">
<script src=\"https://cdn.jsdelivr.net/npm/marked/marked.min.js\"></script>
<style>
  body \x7b
    background: #0d1117;
    color: #e6edf3;
    max-width: 960px;
    margin: 0 auto;
    padding: 2rem 1rem;
    font-family: -apple-system, BlinkMacSystemFont, \"Segoe UI\", Helvetica, Arial, sans-serif;
  \x7d
  .markdown-body \x7b
    background: transparent;
  \x7d
  .markdown-body pre \x7b
    background: #161b22;
  \x7d
  .markdown-body code \x7b
    background: #161b22;
  \x7d
  nav \x7b margin-bottom: 1.5rem; \x7d
  nav a \x7b color: #58a6ff; text-decoration: none; \x7d
  nav a:hover \x7b text-decoration: underline; \x7d
  #content \x7b display: none; \x7d
</style>
</head>
<body>
<nav><a href=\"/\">&larr; All sessions</a></nav>
<div id=\"raw\" class=\"markdown-body\"></div>
<pre id=\"content\">CONTENT</pre>
<script>
  const md = document.getElementById(\x27content\x27).textContent;
  document.getElementById(\x27raw\x27).innerHTML = marked.parse(md);
</script>
</body>
</html>"

/-- The listing page template (`INDEX_TEMPLATE` in `serve.js`), with the
placeholder `ENTRIES`. -/
def INDEX_TEMPLATE : String := "<!DOCTYPE html>
<html lang=\"en\">
<head>
<meta charset=\"utf-8\">
<meta name=\"viewport\" content=\"width=device-width, initial-scale=1\">
<title>Session Logs</title>
<style>
  body \x7b
    background: #0d1117;
    color: #e6edf3;
    max-width: 960px;
    margin: 0 auto;
    padding: 2rem 1rem;
    font-family: -apple-system, BlinkMacSystemFont, \"Segoe UI\", Helvetica, Arial, sans-serif;
  \x7d
  h1 \x7b border-bottom: 1px solid #30363d; padding-bottom: 0.5rem; \x7d
  .session \x7b
    padding: 0.75rem 0;
    border-bottom: 1px solid #21262d;
    display: flex;
    justify-content: space-between;
    align-items: center;
  \x7d
  .session-name \x7b
    font-family: monospace;
    font-size: 0.95rem;
  \x7d
  a \x7b color: #58a6ff; text-decoration: none; \x7d
  a:hover \x7b text-decoration: underline; \x7d
  .links \x7b font-size: 0.85rem; \x7d
  .links a \x7b margin-left: 1rem; \x7d
  .subagent \x7b opacity: 0.7; font-size: 0.85rem; margin-left: 0.5rem; \x7d
  .empty \x7b color: #8b949e; font-style: italic; \x7d
</style>
</head>
<body>
<h1>Session Logs</h1>
ENTRIES
</body>
</html>"

/-- The base label of an index entry: when the parsed `date` is non-empty
(truthy), the trimmed `"<date> <time>"` followed by an em-dash and the
session; otherwise the raw name. -/
def labelBase (meta : LogMeta) : String :=
  if meta.date = "" then meta.raw
  else jsTrim (meta.date ++ " " ++ meta.time) ++ " &mdash; " ++ meta.session

/-- JS truthiness of a nullable string: present and non-empty. -/
def jsTruthyOptStr : Option String → Bool
  | none => false
  | some s => !(s == "")

/-- The full label: the base label plus, for truthy `agentType`, the
sub-agent `<span>` annotation (with `agentId || ""`). -/
def labelOf (meta : LogMeta) : String :=
  let label := labelBase meta
  if jsTruthyOptStr meta.agentType then
    label ++ "<span class=\"subagent\">" ++ meta.agentType.getD "" ++ " " ++
      meta.agentId.getD "" ++ "</span>"
  else label

/-- The extension-less link target of an entry (`f.replace(".md", "")`). -/
def entrySlug (f : String) : String := jsReplaceFirst f ".md" ""

/-- One rendered index entry, concatenated exactly as in `buildIndex`. -/
def entryFor (f : String) : String :=
  "<div class=\"session\">" ++ "  <span class=\"session-name\">" ++
    labelOf (parseLogName f) ++ "</span>" ++ "  <span class=\"links\">" ++
    "    <a href=\"/" ++ entrySlug f ++ "\">view</a>" ++ "    <a href=\"/" ++ f ++
    "\">raw</a>" ++ "  </span>" ++ "</div>"

/-! ### The JS default sort order (UTF-16 code units) -/

/-- The UTF-16 code units of one character. -/
def utf16Units (c : Char) : List Nat :=
  if c.toNat < 0x10000 then [c.toNat]
  else [0xD800 + (c.toNat - 0x10000) / 0x400, 0xDC00 + (c.toNat - 0x10000) % 0x400]

/-- The UTF-16 code-unit sequence of a string; JS string comparison (used
by the default `Array.prototype.sort` comparator) is lexicographic over
these units. -/
def utf16Key (s : String) : List Nat := (s.data.map utf16Units).flatten

/-- Lexicographic strict order on code-unit sequences. -/
def unitsLt : List Nat → List Nat → Bool
  | _, [] => false
  | [], _ :: _ => true
  | a :: as, b :: bs => decide (a < b) || (a == b && unitsLt as bs)

/-- `a ≤ b` in the JS string order. -/
def jsLe (a b : String) : Prop := unitsLt (utf16Key b) (utf16Key a) = false

instance : DecidableRel jsLe := fun a b =>
  inferInstanceAs (Decidable (unitsLt (utf16Key b) (utf16Key a) = false))

/-- `a > b` in the JS string order (strictly descending pairs). -/
def jsGt (a b : String) : Prop := unitsLt (utf16Key b) (utf16Key a) = true

/-- The listing filter: keep names ending in `.md` and not starting with a
dot. -/
def logFilter (f : String) : Bool := strEndsWith f ".md" && !(strStartsWith f ".")

/-- The file sequence of the index: filter the directory listing, sort
ascending with the default comparator, then reverse (newest first).  A
failed directory read (`none`) degrades to the empty listing. -/
def indexFiles (listing : Option (List String)) : List String :=
  (List.insertionSort jsLe ((listing.getD []).filter logFilter)).reverse

/-- `buildIndex` from `serve.js`, over a directory-listing snapshot. -/
def buildIndex (listing : Option (List String)) : String :=
  let files := indexFiles listing
  if files.isEmpty then
    jsReplaceFirst INDEX_TEMPLATE "ENTRIES" "<p class=\"empty\">No session logs found.</p>"
  else
    jsReplaceFirst INDEX_TEMPLATE "ENTRIES" (String.intercalate "\n" (files.map entryFor))

/-! ### The request handler

The handler is modelled over a snapshot of the log directory: an
association list from file basename to file content.  `decodeURIComponent`
can throw `URIError`; since the source calls it outside any `try`, the
handler model returns `Except`, with `Except.error` marking an exception
that escapes the request listener. -/

/-- Value of one hex digit. -/
def hexDigitVal (c : Char) : Option Nat :=
  if 48 ≤ c.toNat && c.toNat ≤ 57 then some (c.toNat - 48)
  else if 65 ≤ c.toNat && c.toNat ≤ 70 then some (c.toNat - 55)
  else if 97 ≤ c.toNat && c.toNat ≤ 102 then some (c.toNat - 87)
  else none

/-- Read the two hex digits of a `%XX` escape (after the `%`). -/
def readHexByte : List Char → Option (Nat × List Char)
  | h1 :: h2 :: r => do
    let x ← hexDigitVal h1
    let y ← hexDigitVal h2
    some (16 * x + y, r)
  | _ => none

/-- Read `n` UTF-8 continuation bytes, each written as a `%XX` escape with
value in `[0x80, 0xBF]`, accumulating the code point value. -/
def readCont : Nat → Nat → List Char → Option (Nat × List Char)
  | 0, v, l => some (v, l)
  | n + 1, v, l =>
    match l with
    | '%' :: r =>
      match readHexByte r with
      | some (b, r2) =>
        if 0x80 ≤ b && b ≤ 0xBF then readCont n (v * 64 + (b - 0x80)) r2 else none
      | none => none
    | _ => none

/-- Decoding loop of `decodeURIComponent`, following the ECMA-262 `Decode`
algorithm: a `%XX` escape must have two hex digits; a lead byte determines
the number of continuation escapes; the decoded value must be in range,
not a surrogate, and not overlong.  `none` models a thrown `URIError`.
The `fuel` argument only makes the recursion structural: every step
consumes at least one input character while spending exactly one unit of
fuel, so with the input's length as initial fuel the `fuel = 0` case is
never reached on a non-empty input. -/
def decodeGoF : Nat → List Char → Option (List Char)
  | _, [] => some []
  | 0, _ :: _ => none
  | fuel + 1, c :: r =>
    if c == '%' then
      match readHexByte r with
      | none => none
      | some (b, r1) =>
        if b < 0x80 then
          (decodeGoF fuel r1).map (Char.ofNat b :: ·)
        else
          match (if 0xC0 ≤ b && b ≤ 0xDF then some (1, b - 0xC0, 0x80)
              else if 0xE0 ≤ b && b ≤ 0xEF then some (2, b - 0xE0, 0x800)
              else if 0xF0 ≤ b && b ≤ 0xF7 then some (3, b - 0xF0, 0x10000)
              else (none : Option (Nat × Nat × Nat))) with
          | none => none
          | some (n, v0, lo) =>
            match readCont n v0 r1 with
            | none => none
            | some (v, r2) =>
              if lo ≤ v && v < 0x110000 && !(0xD800 ≤ v && v ≤ 0xDFFF) then
                (decodeGoF fuel r2).map (Char.ofNat v :: ·)
              else none
    else
      (decodeGoF fuel r).map (c :: ·)

/-- `decodeURIComponent` on a string; `none` is a thrown `URIError`. -/
def decodeURIComponent (s : String) : Option String :=
  (decodeGoF s.data.length s.data).map (⟨·⟩)

/-- POSIX `path.basename`: drop trailing slashes, then take the final
segment. -/
def jsBasename (p : String) : String :=
  ⟨((p.data.reverse.dropWhile (· == '/')).takeWhile (· != '/')).reverse⟩

/-- Strip the leading run of slashes (`.replace(/^\/+/, "")`). -/
def stripLeadingSlashes (s : String) : String := ⟨s.data.dropWhile (· == '/')⟩

/-- A directory snapshot: basename to content. -/
def lookupFile : List (String × String) → String → Option String
  | [], _ => none
  | (n, c) :: rest, name => if n = name then some c else lookupFile rest name

/-- An HTTP response as produced by `respond`: status code, body, content
type (every response also carries the permissive CORS header and an
explicit `Content-Length`, which carry no information beyond the body). -/
structure HttpResponse where
  status : Nat
  body : String
  contentType : String
deriving DecidableEq, Repr

/-- The request listener from `main`: decode the URL (outside any `try` —
a decoding failure escapes as `Except.error`), strip leading slashes, and
dispatch to the index, raw, or rendered route.  File-read failures inside
the routes are caught and mapped to 404. -/
def handle (dir : List (String × String)) (url : String) : Except String HttpResponse :=
  match decodeURIComponent (if url = "" then "/" else url) with
  | none => Except.error "URIError: URI malformed"
  | some decoded =>
    let urlPath := stripLeadingSlashes decoded
    if urlPath = "" then
      Except.ok ⟨200, buildIndex (some (dir.map Prod.fst)), "text/html"⟩
    else if strEndsWith urlPath ".md" then
      match lookupFile dir (jsBasename urlPath) with
      | some content => Except.ok ⟨200, content, "text/plain; charset=utf-8"⟩
      | none => Except.ok ⟨404, "Not found", "text/plain"⟩
    else
      match lookupFile dir (jsBasename urlPath ++ ".md") with
      | some content =>
        Except.ok ⟨200,
          jsReplaceFirst (jsReplaceFirst HTML_TEMPLATE "TITLE" (escapeHtml (jsBasename urlPath)))
            "CONTENT" (escapeHtml content),
          "text/html"⟩
      | none => Except.ok ⟨404, "Not found", "text/plain"⟩

example : parseLogName "2024-01-15-0900-deploy-subagent-reviewer-7f3a.md" =
    ⟨"2024-01-15-0900-deploy-subagent-reviewer-7f3a", "2024-01-15", "09:00",
      "deploy", some "reviewer", some "7f3a"⟩ := by decide
example : parseLogName "notes.md" = ⟨"notes", "", "", "", none, none⟩ := by decide
example : parseLogName "2024-01-15-session.md" =
    ⟨"2024-01-15-session", "2024-01-15", "", "session", none, none⟩ := by decide
example : parseLogName "2024-01-15-1234-subagent-x-y.md" =
    ⟨"2024-01-15-1234-subagent-x-y", "2024-01-15", "", "1234", some "x", some "y"⟩ := by decide

/-! ## Sanity checks of the JS string primitives -/

example : escapeHtml "# Hello <world>" = "# Hello &lt;world&gt;" := by decide
example : jsReplaceFirst "a.md.b.md" ".md" "" = "a.b.md" := by decide
example : jsTrim "2024-01-15 " = "2024-01-15" := by decide
example : decodeURIComponent "/%" = none := by decide
example : decodeURIComponent "/a%20b" = some "/a b" := by decide
example : decodeURIComponent "/%E2%82%AC" = some "/€" := by decide
example : decodeURIComponent "/%C0%80" = none := by decide
example : jsBasename "a/b/c.md" = "c.md" := by decide

/-! ## Non-emptiness of the sub-agent captures

`(.+)` and `(\w+)` each require at least one character, so whenever the
optional sub-agent group participates, both captures are non-empty.  This
is what keeps `m[4] || null` and `m[5] || null` from collapsing exactly
one of the two to null. -/

theorem subSplitAux_ne_nil {r : List Char} : ∀ {i : Nat} {A B : List Char},
    subSplitAux r i = some (A, B) → A ≠ [] ∧ B ≠ [] := by
  intro i
  induction i with
  | zero => intro A B h; simp [subSplitAux] at h
  | succ i ih =>
    intro A B h
    simp only [subSplitAux] at h
    split at h
    · rename_i hc
      injection h with h'
      injection h' with hA hB
      simp only [Bool.and_eq_true, beq_iff_eq, Bool.not_eq_true'] at hc
      obtain ⟨⟨⟨hidx, _⟩, hBne⟩, _⟩ := hc
      constructor
      · subst hA
        have hlen : i + 1 < r.length := by
          by_contra hlt
          rw [List.getElem?_eq_none (by omega)] at hidx
          cases hidx
        intro hnil
        rw [List.take_eq_nil_iff] at hnil
        rcases hnil with h1 | h1
        · omega
        · subst h1; simp at hlen
      · subst hB
        intro hnil
        rw [hnil] at hBne
        simp at hBne
    · exact ih h

theorem trySubagent_ne_nil {l A B} (h : trySubagent l = some (A, B)) :
    A ≠ [] ∧ B ≠ [] := by
  unfold trySubagent at h
  split at h
  · exact subSplitAux_ne_nil h
  · cases h

theorem matchTail_ne_nil {l A B} (h : matchTail l = some (some (A, B))) :
    A ≠ [] ∧ B ≠ [] := by
  unfold matchTail at h
  split at h
  · rename_i ab hab
    injection h with h'
    injection h' with h''
    obtain ⟨A', B'⟩ := ab
    injection h'' with h1 h2
    subst h1; subst h2
    exact trySubagent_ne_nil hab
  · split at h
    · injection h with h'; cases h'
    · cases h

theorem sessionAux_ne_nil : ∀ {l acc s : List Char} {A B : List Char},
    sessionAux acc l = some (s, some (A, B)) → A ≠ [] ∧ B ≠ [] := by
  intro l
  induction l with
  | nil => intro acc s A B h; simp [sessionAux] at h
  | cons c rs ih =>
    intro acc s A B h
    simp only [sessionAux] at h
    split at h
    · split at h
      · rename_i tail htail
        injection h with h'
        injection h' with h1 h2
        subst h2
        exact matchTail_ne_nil htail
      · exact ih h
    · cases h

theorem withTime_ne_nil {l t s : List Char} {A B : List Char}
    (h : withTime l = some (t, (s, some (A, B)))) : A ≠ [] ∧ B ≠ [] := by
  unfold withTime at h
  cases hd : takeDigits 4 l with
  | none => rw [hd] at h; cases h
  | some p =>
    obtain ⟨t0, r1⟩ := p
    rw [hd] at h
    simp only [Option.bind_eq_bind, Option.some_bind] at h
    cases he : expectDash r1 with
    | none => rw [he] at h; cases h
    | some r2 =>
      rw [he] at h
      simp only [Option.some_bind] at h
      cases hs : sessionAux [] r2 with
      | none => rw [hs] at h; cases h
      | some res =>
        rw [hs] at h
        simp only [Option.some_bind, Option.some.injEq] at h
        obtain ⟨s0, tail0⟩ := res
        rw [Prod.mk.injEq] at h
        obtain ⟨ht, hrest⟩ := h
        rw [Prod.mk.injEq] at hrest
        obtain ⟨hs0, htail⟩ := hrest
        subst htail
        exact sessionAux_ne_nil hs

theorem logRegexMatch_agents {l : List Char} {m : LogMatch}
    (h : logRegexMatch l = some m) :
    (m.agentType = none ∧ m.agentId = none) ∨
      (∃ A B, m.agentType = some A ∧ m.agentId = some B ∧ A ≠ [] ∧ B ≠ []) := by
  unfold logRegexMatch at h
  cases hd : matchDate l with
  | none => rw [hd] at h; cases h
  | some p =>
    obtain ⟨d, r1⟩ := p
    rw [hd] at h
    simp only [Option.bind_eq_bind, Option.some_bind] at h
    cases he : expectDash r1 with
    | none => rw [he] at h; cases h
    | some r2 =>
      rw [he] at h
      simp only [Option.some_bind] at h
      cases hw : withTime r2 with
      | some res =>
        rw [hw] at h
        obtain ⟨t, s, tail⟩ := res
        simp only [Option.some.injEq] at h
        subst h
        cases tail with
        | none => left; simp
        | some ab =>
          obtain ⟨A, B⟩ := ab
          right
          refine ⟨A, B, rfl, rfl, ?_⟩
          exact withTime_ne_nil hw
      | none =>
        rw [hw] at h
        cases hs : sessionAux [] r2 with
        | none => rw [hs] at h; cases h
        | some res =>
          rw [hs] at h
          obtain ⟨s, tail⟩ := res
          simp only [Option.some.injEq] at h
          subst h
          cases tail with
          | none => left; simp
          | some ab =>
            obtain ⟨A, B⟩ := ab
            right
            refine ⟨A, B, rfl, rfl, ?_⟩
            exact sessionAux_ne_nil hs

/-! ## Claim theorems -/

/-- C1: the claim says no failure in the request path crashes the process,
but the handler calls `decodeURIComponent` outside any `try`; on the
malformed request path `/%` it throws `URIError` before any response is
written, for every directory state. -/
theorem handle_percent_throws (dir : List (String × String)) :
    handle dir "/%" = Except.error "URIError: URI malformed" := rfl

/-- C2: for every input string, `agentType` and `agentId` of the parsed
record are either both present or both absent. -/
theorem parseLogName_agent_fields_paired (s : String) :
    ((parseLogName s).agentType = none ↔ (parseLogName s).agentId = none) := by
  unfold parseLogName
  cases h : logRegexMatch (jsReplaceFirst s ".md" "").data with
  | none => simp only [h]
  | some m =>
    rcases logRegexMatch_agents h with ⟨h1, h2⟩ | ⟨A, B, h1, h2, hA, hB⟩
    · simp [h, h1, h2, jsOrNull]
    · have hA' : (⟨A⟩ : String) ≠ "" := by
        intro hh
        exact hA (by simpa using congrArg String.data hh)
      have hB' : (⟨B⟩ : String) ≠ "" := by
        intro hh
        exact hB (by simpa using congrArg String.data hh)
      simp [h, h1, h2, jsOrNull, hA', hB']

/-- C3: `parseLogName` is total (it is a Lean function), and on any input
whose stripped name fails the grammar it returns the fallback record whose
only populated field is the raw name. -/
theorem parseLogName_no_match_fallback (s : String)
    (h : logRegexMatch (jsReplaceFirst s ".md" "").data = none) :
    parseLogName s = ⟨jsReplaceFirst s ".md" "", "", "", "", none, none⟩ := by
  simp only [parseLogName]
  rw [h]

/-- Witness for C3 at the spec's own example `notes.md`. -/
theorem parseLogName_no_match_fallback_witness :
    logRegexMatch (jsReplaceFirst "notes.md" ".md" "").data = none ∧
      parseLogName "notes.md" = ⟨"notes", "", "", "", none, none⟩ :=
  ⟨by decide, by
    have := parseLogName_no_match_fallback "notes.md" (by decide)
    simpa using this⟩

/-- C4: for a directory containing `2024-01-15-1430-refactor.md` with
content `# Hello <world>`, the raw route returns the content byte for
byte as `text/plain`, and the rendered route returns the page template
with the escaped content substituted into the `CONTENT` slot, where the
escaped content is exactly `# Hello &lt;world&gt;`. -/
theorem roundtrip_raw_and_rendered :
    handle [("2024-01-15-1430-refactor.md", "# Hello <world>")]
        "/2024-01-15-1430-refactor.md" =
      Except.ok ⟨200, "# Hello <world>", "text/plain; charset=utf-8"⟩ ∧
    handle [("2024-01-15-1430-refactor.md", "# Hello <world>")]
        "/2024-01-15-1430-refactor" =
      Except.ok ⟨200,
        jsReplaceFirst
          (jsReplaceFirst HTML_TEMPLATE "TITLE" (escapeHtml "2024-01-15-1430-refactor"))
          "CONTENT" (escapeHtml "# Hello <world>"), "text/html"⟩ ∧
    escapeHtml "# Hello <world>" = "# Hello &lt;world&gt;" :=
  ⟨rfl, rfl, by decide⟩

/-- C8: the spec's sub-agent example parses exactly as documented. -/
theorem parseLogName_subagent_example :
    parseLogName "2024-01-15-0900-deploy-subagent-reviewer-7f3a.md" =
      ⟨"2024-01-15-0900-deploy-subagent-reviewer-7f3a", "2024-01-15", "09:00",
        "deploy", some "reviewer", some "7f3a"⟩ := by decide

/-- C9: a dot-file is excluded from the index listing (for every directory
listing), yet the raw file route serves `/.hidden.md` with status 200: the
hidden-file filter applies only to the listing. -/
theorem hidden_files_filtered_but_served :
    (∀ (files : List String) (f : String), strStartsWith f "." = true →
        f ∉ indexFiles (some files)) ∧
      handle [(".hidden.md", "secret")] "/.hidden.md" =
        Except.ok ⟨200, "secret", "text/plain; charset=utf-8"⟩ := by
  constructor
  · intro files f hf hmem
    unfold indexFiles at hmem
    rw [List.mem_reverse] at hmem
    have hmem2 : f ∈ (files.filter logFilter) :=
      (List.Perm.mem_iff (List.perm_insertionSort jsLe _)).mp hmem
    rw [List.mem_filter] at hmem2
    have h2 := hmem2.2
    unfold logFilter at h2
    rw [hf] at h2
    simp at h2
  · rfl

/-- Witness for C9: a concrete hidden file is indeed not listed. -/
theorem hidden_files_filtered_but_served_witness :
    strStartsWith ".h.md" "." = true ∧ ".h.md" ∉ indexFiles (some [".h.md", "a.md"]) :=
  ⟨by decide, hidden_files_filtered_but_served.1 [".h.md", "a.md"] ".h.md" (by decide)⟩

/-! ## The index inserts labels verbatim (C10) -/

theorem firstOcc_isSome_of_parts {pat l : List Char}
    (h : ∃ pre suf, l = pre ++ (pat ++ suf)) : (firstOcc pat l).isSome = true := by
  obtain ⟨pre, suf, rfl⟩ := h
  induction pre with
  | nil =>
    cases hps : pat ++ suf with
    | nil =>
      have : pat = [] := (List.append_eq_nil.mp hps).1
      simp [firstOcc, hps, this]
    | cons c cs =>
      have hpre : pat.isPrefixOf (pat ++ suf) = true :=
        List.isPrefixOf_iff_prefix.mpr (List.prefix_append _ _)
      simp only [List.nil_append]
      rw [hps] at hpre
      simp [firstOcc, hps, hpre]
  | cons c pre ih =>
    simp only [List.cons_append, firstOcc]
    split
    · simp
    · simpa using ih

/-- Every entry contains its label verbatim: `buildIndex` performs no
escaping on the label text. -/
theorem entry_contains_label (f : String) :
    strContains (entryFor f) (labelOf (parseLogName f)) = true := by
  unfold strContains entryFor
  refine firstOcc_isSome_of_parts
    ⟨("<div class=\"session\">".data ++ "  <span class=\"session-name\">".data), ?_, ?_⟩
  · exact ("</span>".data ++ ("  <span class=\"links\">".data ++ ("    <a href=\"/".data ++
      ((entrySlug f).data ++ ("\">view</a>".data ++ ("    <a href=\"/".data ++
        (f.data ++ ("\">raw</a>".data ++ ("  </span>".data ++ "</div>".data)))))))))
  · simp [String.data_append, List.append_assoc]

set_option maxRecDepth 4000 in
/-- C10: index labels are inserted without HTML escaping.  Every entry
contains its label verbatim; the filename `a<b.md` falls back to the raw
label `a<b`, whose `<` appears unescaped in the entry (the escaped form
`a&lt;b` does not appear); the index page is the template with exactly
that entry substituted; by contrast `escapeHtml` (used on the rendered
route) would have produced `a&lt;b`. -/
theorem index_label_unescaped :
    (∀ f : String, strContains (entryFor f) (labelOf (parseLogName f)) = true) ∧
    labelOf (parseLogName "a<b.md") = "a<b" ∧
    strContains (entryFor "a<b.md") "a<b" = true ∧
    strContains (entryFor "a<b.md") "a&lt;b" = false ∧
    buildIndex (some ["a<b.md"]) = jsReplaceFirst INDEX_TEMPLATE "ENTRIES" (entryFor "a<b.md") ∧
    escapeHtml "a<b" = "a&lt;b" := by
  refine ⟨entry_contains_label, by decide, by decide, by decide, ?_, by decide⟩
  have h1 : indexFiles (some ["a<b.md"]) = ["a<b.md"] := by decide
  simp only [buildIndex, h1, List.isEmpty_cons, Bool.false_eq_true, if_false,
    List.map_cons, List.map_nil]
  rw [show String.intercalate "\n" [entryFor "a<b.md"] = entryFor "a<b.md" from rfl]

/-! ## rawName strips the first `.md` occurrence, not the extension (C6) -/

theorem isPrefixOf3 (p1 p2 p3 x1 x2 x3 : Char) (rest : List Char) :
    List.isPrefixOf [p1, p2, p3] (x1 :: x2 :: x3 :: rest) =
      (p1 == x1 && (p2 == x2 && p3 == x3)) := by
  simp [List.isPrefixOf]

/-- If `.md` does not occur anywhere in `g ++ ".m"`, then its first
occurrence in `g ++ ".md"` is exactly at the end, at index `g.length`. -/
theorem firstOcc_md_append : ∀ (g : List Char),
    firstOcc ['.', 'm', 'd'] (g ++ ['.', 'm']) = none →
    firstOcc ['.', 'm', 'd'] (g ++ ['.', 'm', 'd']) = some g.length := by
  intro g
  induction g with
  | nil => intro _; decide
  | cons c g ih =>
    intro H
    simp only [List.cons_append, firstOcc, List.append_eq] at H ⊢
    split at H
    · cases H
    · rename_i hp
      have H2 : firstOcc ['.', 'm', 'd'] (g ++ ['.', 'm']) = none := by
        cases hfo : firstOcc ['.', 'm', 'd'] (g ++ ['.', 'm']) with
        | none => rfl
        | some k => rw [hfo] at H; cases H
      have hneg : ¬(List.isPrefixOf ['.', 'm', 'd'] (c :: (g ++ ['.', 'm', 'd'])) = true) := by
        match g with
        | [] => simp [List.isPrefixOf]
        | [a] => simp [List.isPrefixOf]
        | a :: b :: g' =>
          rw [show (c :: ((a :: b :: g') ++ ['.', 'm', 'd'])) =
              (c :: a :: b :: (g' ++ ['.', 'm', 'd'])) from rfl]
          rw [isPrefixOf3]
          rw [show (c :: ((a :: b :: g') ++ ['.', 'm'])) =
              (c :: a :: b :: (g' ++ ['.', 'm'])) from rfl] at hp
          rw [isPrefixOf3] at hp
          exact hp
      rw [if_neg hneg, ih H2]
      simp

/-- In both the match and fallback branches, `parseLogName` sets `raw` to
the input with the first `.md` occurrence removed. -/
theorem parseLogName_raw (f : String) :
    (parseLogName f).raw = jsReplaceFirst f ".md" "" := by
  simp only [parseLogName]
  cases h : logRegexMatch (jsReplaceFirst f ".md" "").data <;> simp [h]

theorem jsReplaceFirst_strip (g : String)
    (h : firstOcc (".md".data) (g.data ++ ['.', 'm']) = none) :
    jsReplaceFirst (g ++ ".md") ".md" "" = g := by
  unfold jsReplaceFirst
  have hpat : (".md".data : List Char) = ['.', 'm', 'd'] := rfl
  have hd : (g ++ ".md").data = g.data ++ ['.', 'm', 'd'] := by
    rw [String.data_append, hpat]
  have hocc : firstOcc (".md".data) ((g ++ ".md").data) = some g.data.length := by
    rw [hd, hpat]
    exact firstOcc_md_append g.data (by rw [hpat] at h; exact h)
  rw [hocc]
  simp only [hd, hpat]
  rw [show substDollar ['.', 'm', 'd']
      ((g.data ++ ['.', 'm', 'd']).take g.data.length)
      ((g.data ++ ['.', 'm', 'd']).drop (g.data.length + (['.', 'm', 'd'] : List Char).length)) [] =
      [] from rfl]
  rw [List.take_left]
  rw [show ((['.', 'm', 'd'] : List Char).length) = 3 from rfl]
  rw [← List.drop_drop, List.drop_left]
  simp

theorem jsReplaceFirst_noOcc (f : String)
    (h : firstOcc (".md".data) f.data = none) : jsReplaceFirst f ".md" "" = f := by
  unfold jsReplaceFirst
  rw [h]

/-- C6 (amended): `rawName` and the view-link slug remove the FIRST
occurrence of `.md`.  When the only occurrence is the trailing extension
this is extension stripping, and a name with no `.md` occurrence is left
unchanged — but an interior occurrence is removed instead of the final
one (see the counterexample). -/
theorem rawName_first_occurrence_amended :
    (∀ g : String, firstOcc (".md".data) (g.data ++ ['.', 'm']) = none →
        (parseLogName (g ++ ".md")).raw = g ∧ entrySlug (g ++ ".md") = g) ∧
    (∀ f : String, firstOcc (".md".data) f.data = none →
        (parseLogName f).raw = f ∧ entrySlug f = f) := by
  constructor
  · intro g hg
    have hs := jsReplaceFirst_strip g hg
    exact ⟨by rw [parseLogName_raw, hs], by rw [entrySlug, hs]⟩
  · intro f hf
    have hs := jsReplaceFirst_noOcc f hf
    exact ⟨by rw [parseLogName_raw, hs], by rw [entrySlug, hs]⟩

/-- Counterexample to C6 as stated: for `a.md.b.md` the code removes the
interior `.md`, so `rawName` (and the slug) is `a.b.md`, not `a.md.b`. -/
theorem rawName_interior_md_counterexample :
    (parseLogName "a.md.b.md").raw ≠ "a.md.b" ∧
    (parseLogName "a.md.b.md").raw = "a.b.md" ∧
    entrySlug "a.md.b.md" = "a.b.md" := by
  refine ⟨by decide, by decide, by decide⟩

/-- Witness for the amended C6 at a name whose only `.md` is the
extension. -/
theorem rawName_first_occurrence_amended_witness :
    firstOcc (".md".data) ("2024-01-15-a".data ++ ['.', 'm']) = none ∧
      (parseLogName ("2024-01-15-a" ++ ".md")).raw = "2024-01-15-a" :=
  ⟨by decide, (rawName_first_occurrence_amended.1 "2024-01-15-a" (by decide)).1⟩

/-! ## Label composition trims the date-time pair (C5) -/


theorem digit_not_ws {c : Char} (h : isDigitChar c = true) : jsIsWs c = false := by
  simp only [isDigitChar, Bool.and_eq_true, decide_eq_true_eq] at h
  simp only [jsIsWs, Bool.or_eq_false_iff, beq_eq_false_iff_ne, ne_eq,
    Bool.and_eq_false_iff, decide_eq_false_iff_not, not_le]
  omega

theorem trim_noop_list (l : List Char)
    (h1 : ∀ c, l.head? = some c → jsIsWs c = false)
    (h2 : ∀ c, l.getLast? = some c → jsIsWs c = false) :
    ((l.dropWhile jsIsWs).reverse.dropWhile jsIsWs).reverse = l := by
  have hd : l.dropWhile jsIsWs = l := by
    cases l with
    | nil => rfl
    | cons c cs => simp [List.dropWhile_cons, h1 c rfl]
  rw [hd]
  have hrev : l.reverse.dropWhile jsIsWs = l.reverse := by
    cases hr : l.reverse with
    | nil => rfl
    | cons c cs =>
      have hlast : l.getLast? = some c := by
        rw [← List.head?_reverse, hr]; rfl
      rw [List.dropWhile_cons, h2 c hlast]
      simp
  rw [hrev, List.reverse_reverse]

theorem trim_space_list (l : List Char) (hne : l ≠ [])
    (h1 : ∀ c, l.head? = some c → jsIsWs c = false)
    (h2 : ∀ c, l.getLast? = some c → jsIsWs c = false) :
    (((l ++ [' ']).dropWhile jsIsWs).reverse.dropWhile jsIsWs).reverse = l := by
  obtain ⟨c, cs, rfl⟩ := List.exists_cons_of_ne_nil hne
  have hd : ((c :: cs) ++ [' ']).dropWhile jsIsWs = (c :: cs) ++ [' '] := by
    rw [List.cons_append, List.dropWhile_cons, h1 c rfl]
    simp
  rw [hd, List.reverse_append]
  simp only [List.reverse_cons, List.reverse_nil, List.nil_append, List.singleton_append]
  have hsp : jsIsWs ' ' = true := by decide
  rw [List.dropWhile_cons, hsp]
  simp only [if_true]
  have hne2 : cs.reverse ++ [c] ≠ [] := by simp
  obtain ⟨x, xs, hr⟩ := List.exists_cons_of_ne_nil hne2
  have hlast : (c :: cs).getLast? = some x := by
    rw [← List.head?_reverse, List.reverse_cons, hr]; rfl
  rw [hr, List.dropWhile_cons, h2 x hlast]
  simp only [Bool.false_eq_true, if_false]
  rw [← hr]
  simp

theorem takeDigits_spec : ∀ {n : Nat} {l d r : List Char},
    takeDigits n l = some (d, r) → d.length = n ∧ ∀ c ∈ d, isDigitChar c = true := by
  intro n
  induction n with
  | zero =>
    intro l d r h
    simp only [takeDigits, Option.some.injEq, Prod.mk.injEq] at h
    obtain ⟨h1, _⟩ := h
    subst h1
    simp
  | succ n ih =>
    intro l d r h
    match l with
    | [] => rw [show takeDigits (n + 1) ([] : List Char) = none from rfl] at h; cases h
    | c :: cs =>
      simp only [takeDigits] at h
      split at h
      · rename_i hdig
        cases htd : takeDigits n cs with
        | none => rw [htd] at h; cases h
        | some p =>
          obtain ⟨d', r'⟩ := p
          rw [htd] at h
          simp at h
          obtain ⟨h1, _⟩ := h
          subst h1
          obtain ⟨hlen, hall⟩ := ih htd
          constructor
          · simp [hlen]
          · intro x hx
            rcases List.mem_cons.mp hx with h | h
            · subst h; exact hdig
            · exact hall x h
      · cases h

theorem matchDate_shape {l d r : List Char} (h : matchDate l = some (d, r)) :
    ∃ c1 c2, d.head? = some c1 ∧ d.getLast? = some c2 ∧
      isDigitChar c1 = true ∧ isDigitChar c2 = true := by
  unfold matchDate at h
  cases h1 : takeDigits 4 l with
  | none => rw [h1] at h; cases h
  | some p1 =>
    obtain ⟨a, r1⟩ := p1
    rw [h1] at h
    simp only [Option.bind_eq_bind, Option.some_bind] at h
    cases h2 : expectDash r1 with
    | none => rw [h2] at h; cases h
    | some r2 =>
      rw [h2] at h
      simp only [Option.some_bind] at h
      cases h3 : takeDigits 2 r2 with
      | none => rw [h3] at h; cases h
      | some p2 =>
        obtain ⟨b, r3⟩ := p2
        rw [h3] at h
        simp only [Option.some_bind] at h
        cases h4 : expectDash r3 with
        | none => rw [h4] at h; cases h
        | some r4 =>
          rw [h4] at h
          simp only [Option.some_bind] at h
          cases h5 : takeDigits 2 r4 with
          | none => rw [h5] at h; cases h
          | some p3 =>
            obtain ⟨c, r5⟩ := p3
            rw [h5] at h
            simp only [Option.some_bind, Option.some.injEq, Prod.mk.injEq] at h
            obtain ⟨hd, _⟩ := h
            obtain ⟨ha_len, ha_dig⟩ := takeDigits_spec h1
            obtain ⟨hc_len, hc_dig⟩ := takeDigits_spec h5
            obtain ⟨a0, a', rfl⟩ := List.exists_cons_of_ne_nil
              (show a ≠ [] by intro hh; rw [hh] at ha_len; cases ha_len)
            obtain ⟨c0, c', rfl⟩ := List.exists_cons_of_ne_nil
              (show c ≠ [] by intro hh; rw [hh] at hc_len; cases hc_len)
            cases c' with
            | nil => simp at hc_len
            | cons y c'' =>
              cases c'' with
              | cons z w => simp at hc_len
              | nil =>
                subst hd
                refine ⟨a0, y, by simp, ?_, ha_dig a0 (by simp), hc_dig y (by simp)⟩
                rw [List.getLast?_append]
                rfl

theorem withTime_shape {l : List Char} {t : List Char}
    {x : List Char × Option (List Char × List Char)}
    (h : withTime l = some (t, x)) :
    t.length = 4 ∧ ∀ c ∈ t, isDigitChar c = true := by
  unfold withTime at h
  cases h1 : takeDigits 4 l with
  | none => rw [h1] at h; cases h
  | some p =>
    obtain ⟨t0, r1⟩ := p
    rw [h1] at h
    simp only [Option.bind_eq_bind, Option.some_bind] at h
    cases h2 : expectDash r1 with
    | none => rw [h2] at h; cases h
    | some r2 =>
      rw [h2] at h
      simp only [Option.some_bind] at h
      cases h3 : sessionAux [] r2 with
      | none => rw [h3] at h; cases h
      | some res =>
        rw [h3] at h
        simp only [Option.some_bind, Option.some.injEq, Prod.mk.injEq] at h
        obtain ⟨ht, _⟩ := h
        subst ht
        exact takeDigits_spec h1

theorem logRegexMatch_shape {l : List Char} {m : LogMatch}
    (h : logRegexMatch l = some m) :
    (∃ c1 c2, m.date.head? = some c1 ∧ m.date.getLast? = some c2 ∧
      isDigitChar c1 = true ∧ isDigitChar c2 = true) ∧
    (m.time = none ∨ ∃ t, m.time = some t ∧ t.length = 4 ∧ ∀ c ∈ t, isDigitChar c = true) := by
  unfold logRegexMatch at h
  cases hd : matchDate l with
  | none => rw [hd] at h; cases h
  | some p =>
    obtain ⟨d, r1⟩ := p
    rw [hd] at h
    simp only [Option.bind_eq_bind, Option.some_bind] at h
    cases he : expectDash r1 with
    | none => rw [he] at h; cases h
    | some r2 =>
      rw [he] at h
      simp only [Option.some_bind] at h
      cases hw : withTime r2 with
      | some res =>
        rw [hw] at h
        obtain ⟨t, s, tail⟩ := res
        simp only [Option.some.injEq] at h
        subst h
        refine ⟨matchDate_shape hd, Or.inr ⟨t, rfl, withTime_shape hw⟩⟩
      | none =>
        rw [hw] at h
        cases hs : sessionAux [] r2 with
        | none => rw [hs] at h; cases h
        | some res =>
          rw [hs] at h
          obtain ⟨s, tail⟩ := res
          simp only [Option.some.injEq] at h
          subst h
          exact ⟨matchDate_shape hd, Or.inl rfl⟩

theorem labelBase_eq (m : LogMeta) (hne : m.date ≠ "")
    (h1 : ∀ c, m.date.data.head? = some c → jsIsWs c = false)
    (h2 : ∀ c, m.date.data.getLast? = some c → jsIsWs c = false)
    (h3 : m.time = "" ∨ ∀ c, m.time.data.getLast? = some c → jsIsWs c = false) :
    labelBase m =
      (if m.time = "" then m.date else m.date ++ " " ++ m.time) ++
        " &mdash; " ++ m.session := by
  have hsp : (" ".data : List Char) = [' '] := rfl
  have hem : ("".data : List Char) = [] := rfl
  have hdne : m.date.data ≠ [] := by
    intro hl
    exact hne (String.ext (by rw [hl, hem]))
  have htrim : jsTrim (m.date ++ " " ++ m.time) =
      (if m.time = "" then m.date else m.date ++ " " ++ m.time) := by
    by_cases ht : m.time = ""
    · rw [if_pos ht, ht]
      apply String.ext
      show (((m.date ++ " " ++ "").data.dropWhile jsIsWs).reverse.dropWhile jsIsWs).reverse
          = m.date.data
      have hdata : (m.date ++ " " ++ "").data = m.date.data ++ [' '] := by
        rw [String.data_append, String.data_append, hsp, hem, List.append_nil]
      rw [hdata]
      exact trim_space_list m.date.data hdne h1 h2
    · rw [if_neg ht]
      rcases h3 with h3 | h3
      · exact absurd h3 ht
      · have htne : m.time.data ≠ [] := by
          intro hl
          exact ht (String.ext (by rw [hl, hem]))
        have hdata : (m.date ++ " " ++ m.time).data = (m.date.data ++ [' ']) ++ m.time.data := by
          rw [String.data_append, String.data_append, hsp]
        apply String.ext
        show (((m.date ++ " " ++ m.time).data.dropWhile jsIsWs).reverse.dropWhile jsIsWs).reverse
            = (m.date ++ " " ++ m.time).data
        apply trim_noop_list
        · intro c hc
          apply h1
          rw [hdata] at hc
          obtain ⟨c0, cs, hcons⟩ := List.exists_cons_of_ne_nil hdne
          rw [hcons] at hc ⊢
          simpa using hc
        · intro c hc
          apply h3
          rw [hdata, List.getLast?_append] at hc
          obtain ⟨x, xs, hx⟩ := List.exists_cons_of_ne_nil htne
          rw [hx] at hc ⊢
          cases hgl : (x :: xs).getLast? with
          | none => simp at hgl
          | some g => rw [hgl] at hc; simpa using hc
  unfold labelBase
  rw [if_neg hne, htrim]

/-- C5 (amended): for a parsed record with non-empty date the label is
composed as `"<date> <time> &mdash; <sessionLabel>"` when the time is
non-empty; when the time is empty the code trims the date-time pair, so
the label is `"<date> &mdash; <sessionLabel>"` with a single space and no
trailing space before the dash. -/
theorem label_composition_amended (f : String)
    (h : (parseLogName f).date ≠ "") :
    labelBase (parseLogName f) =
      (if (parseLogName f).time = "" then (parseLogName f).date
       else (parseLogName f).date ++ " " ++ (parseLogName f).time) ++
        " &mdash; " ++ (parseLogName f).session := by
  cases hm : logRegexMatch (jsReplaceFirst f ".md" "").data with
  | none =>
    exfalso
    apply h
    simp [parseLogName, hm]
  | some mm =>
    obtain ⟨⟨c1, c2, hh1, hh2, hd1, hd2⟩, htime⟩ := logRegexMatch_shape hm
    have hdate : (parseLogName f).date = (⟨mm.date⟩ : String) := by
      simp [parseLogName, hm]
    apply labelBase_eq _ h
    · intro c hc
      rw [hdate] at hc
      rw [show ((⟨mm.date⟩ : String)).data = mm.date from rfl, hh1] at hc
      injection hc with hc
      subst hc
      exact digit_not_ws hd1
    · intro c hc
      rw [hdate] at hc
      rw [show ((⟨mm.date⟩ : String)).data = mm.date from rfl, hh2] at hc
      injection hc with hc
      subst hc
      exact digit_not_ws hd2
    · rcases htime with htn | ⟨t, htm, hlen, hdig⟩
      · left
        simp [parseLogName, hm, htn]
      · right
        intro c hc
        have htf : (parseLogName f).time =
            (if t.isEmpty then ""
             else (⟨t.take 2⟩ : String) ++ ":" ++ (⟨t.drop 2⟩ : String)) := by
          simp [parseLogName, hm, htm]
        rcases t with _ | ⟨t0, _ | ⟨t1, _ | ⟨t2, _ | ⟨t3, _ | ⟨t4, t5⟩⟩⟩⟩⟩ <;>
          simp only [List.length_nil, List.length_cons] at hlen
        · omega
        · omega
        · omega
        · omega
        · rw [htf] at hc
          rw [show (List.isEmpty [t0, t1, t2, t3]) = false from rfl] at hc
          simp only [Bool.false_eq_true, if_false] at hc
          rw [show ((⟨(List.take 2 [t0, t1, t2, t3])⟩ : String) ++ ":" ++
              (⟨(List.drop 2 [t0, t1, t2, t3])⟩ : String)).data =
              [t0, t1, ':', t2, t3] from rfl] at hc
          rw [show (List.getLast? [t0, t1, ':', t2, t3]) = some t3 from rfl] at hc
          injection hc with hc
          subst hc
          exact digit_not_ws (hdig t3 (by simp))
        · omega

/-- Counterexample to C5 as stated: for the time-less name
`2024-01-15-session.md` the claimed composition
`"<date> <time> &mdash; <session>"` has a trailing space after the date,
but the code trims it, producing a single space. -/
theorem label_trailing_space_counterexample :
    labelBase (parseLogName "2024-01-15-session.md") ≠
      (parseLogName "2024-01-15-session.md").date ++ " " ++
        (parseLogName "2024-01-15-session.md").time ++ " &mdash; " ++
        (parseLogName "2024-01-15-session.md").session ∧
    labelBase (parseLogName "2024-01-15-session.md") = "2024-01-15 &mdash; session" := by
  exact ⟨by decide, by decide⟩

/-- Witness for the amended C5 at a dated, timed filename. -/
theorem label_composition_amended_witness :
    (parseLogName "2024-01-15-1430-refactor.md").date ≠ "" ∧
      labelBase (parseLogName "2024-01-15-1430-refactor.md") =
        (if (parseLogName "2024-01-15-1430-refactor.md").time = ""
         then (parseLogName "2024-01-15-1430-refactor.md").date
         else (parseLogName "2024-01-15-1430-refactor.md").date ++ " " ++
           (parseLogName "2024-01-15-1430-refactor.md").time) ++
          " &mdash; " ++ (parseLogName "2024-01-15-1430-refactor.md").session :=
  ⟨by decide, label_composition_amended "2024-01-15-1430-refactor.md" (by decide)⟩

/-! ## The index is strictly descending by filename (C7)

The default `Array.prototype.sort` comparator compares strings as
sequences of UTF-16 code units; the order lemmas below establish that the
comparison is a strict weak order, and injectivity of the UTF-16 encoding
turns "sorted and duplicate-free" into "strictly descending".
-/


theorem unitsLt_nil_false {a : List Nat} : unitsLt a [] = false := by
  cases a <;> rfl

theorem unitsLt_asymm : ∀ {a b : List Nat}, unitsLt a b = true → unitsLt b a = false := by
  intro a
  induction a with
  | nil =>
    intro b h
    exact unitsLt_nil_false
  | cons x xs ih =>
    intro b h
    cases b with
    | nil => rw [unitsLt_nil_false] at h; cases h
    | cons y ys =>
      simp only [unitsLt, Bool.or_eq_true, Bool.and_eq_true, decide_eq_true_eq,
        beq_iff_eq] at h
      simp only [unitsLt, Bool.or_eq_false_iff, Bool.and_eq_false_iff,
        decide_eq_false_iff_not, not_lt, beq_eq_false_iff_ne, ne_eq]
      rcases h with h | ⟨h1, h2⟩
      · exact ⟨by omega, Or.inl (by omega)⟩
      · exact ⟨by omega, Or.inr (ih h2)⟩

theorem unitsLt_trans : ∀ {a b c : List Nat},
    unitsLt a b = true → unitsLt b c = true → unitsLt a c = true := by
  intro a
  induction a with
  | nil =>
    intro b c h1 h2
    cases c with
    | nil => rw [unitsLt_nil_false] at h2; cases h2
    | cons z zs => rfl
  | cons x xs ih =>
    intro b c h1 h2
    cases b with
    | nil => rw [unitsLt_nil_false] at h1; cases h1
    | cons y ys =>
      cases c with
      | nil => rw [unitsLt_nil_false] at h2; cases h2
      | cons z zs =>
        simp only [unitsLt, Bool.or_eq_true, Bool.and_eq_true, decide_eq_true_eq,
          beq_iff_eq] at h1 h2 ⊢
        rcases h1 with h1 | ⟨h1a, h1b⟩ <;> rcases h2 with h2 | ⟨h2a, h2b⟩
        · left; omega
        · left; omega
        · left; omega
        · right; exact ⟨by omega, ih h1b h2b⟩

theorem unitsLt_conn : ∀ {a b : List Nat},
    unitsLt a b = false → unitsLt b a = false → a = b := by
  intro a
  induction a with
  | nil =>
    intro b h1 h2
    cases b with
    | nil => rfl
    | cons y ys => cases h1
  | cons x xs ih =>
    intro b h1 h2
    cases b with
    | nil => cases h2
    | cons y ys =>
      simp only [unitsLt, Bool.or_eq_false_iff, Bool.and_eq_false_iff,
        decide_eq_false_iff_not, not_lt, beq_eq_false_iff_ne, ne_eq] at h1 h2
      obtain ⟨h1a, h1b⟩ := h1
      obtain ⟨h2a, h2b⟩ := h2
      have hxy : x = y := by omega
      subst hxy
      rcases h1b with h1b | h1b
      · exact absurd rfl h1b
      · rcases h2b with h2b | h2b
        · exact absurd rfl h2b
        · rw [ih h1b h2b]

instance : IsTotal String jsLe :=
  ⟨fun a b => by
    unfold jsLe
    cases hb : unitsLt (utf16Key b) (utf16Key a) with
    | false => left; rfl
    | true => right; exact unitsLt_asymm hb⟩

instance : IsTrans String jsLe :=
  ⟨fun a b c hab hbc => by
    unfold jsLe at hab hbc ⊢
    cases hca : unitsLt (utf16Key c) (utf16Key a) with
    | false => rfl
    | true =>
      exfalso
      cases hbc2 : unitsLt (utf16Key b) (utf16Key c) with
      | true =>
        have := unitsLt_trans hbc2 hca
        rw [this] at hab
        cases hab
      | false =>
        have hkey := unitsLt_conn hbc hbc2
        rw [hkey] at hca
        rw [hca] at hab
        cases hab⟩

theorem char_toNat_inj {c d : Char} (h : c.toNat = d.toNat) : c = d := by
  cases c with
  | mk cv cp =>
    cases d with
    | mk dv dp =>
      have : cv = dv := UInt32.toNat.inj h
      subst this
      rfl

theorem utf16Units_cases (c : Char) :
    (c.toNat < 0x10000 ∧ utf16Units c = [c.toNat] ∧
      (c.toNat < 0xD800 ∨ 0xDFFF < c.toNat)) ∨
    (0x10000 ≤ c.toNat ∧ c.toNat < 0x110000 ∧
      utf16Units c = [0xD800 + (c.toNat - 0x10000) / 0x400,
        0xDC00 + (c.toNat - 0x10000) % 0x400]) := by
  have hv : c.toNat < 0xd800 ∨ (0xdfff < c.toNat ∧ c.toNat < 0x110000) := c.valid
  unfold utf16Units
  by_cases h : c.toNat < 0x10000
  · left
    refine ⟨h, by rw [if_pos h], by omega⟩
  · right
    refine ⟨by omega, by omega, by rw [if_neg h]⟩

set_option maxRecDepth 2000 in
theorem utf16_flatten_inj : ∀ {l1 l2 : List Char},
    (l1.map utf16Units).flatten = (l2.map utf16Units).flatten → l1 = l2 := by
  intro l1
  induction l1 with
  | nil =>
    intro l2 h
    cases l2 with
    | nil => rfl
    | cons d ds =>
      exfalso
      simp only [List.map_nil, List.flatten_nil, List.map_cons, List.flatten_cons] at h
      rcases utf16Units_cases d with ⟨_, hu, _⟩ | ⟨_, _, hu⟩ <;> rw [hu] at h <;> cases h
  | cons c cs ih =>
    intro l2 h
    cases l2 with
    | nil =>
      exfalso
      simp only [List.map_nil, List.flatten_nil, List.map_cons, List.flatten_cons] at h
      rcases utf16Units_cases c with ⟨_, hu, _⟩ | ⟨_, _, hu⟩ <;> rw [hu] at h <;> cases h
    | cons d ds =>
      simp only [List.map_cons, List.flatten_cons] at h
      rcases utf16Units_cases c with ⟨hc1, hcu, hc2⟩ | ⟨hc1, hc2, hcu⟩
      · rcases utf16Units_cases d with ⟨hd1, hdu, hd2⟩ | ⟨hd1, hd2, hdu⟩
        · rw [hcu, hdu] at h
          simp only [List.cons_append, List.nil_append] at h
          injection h with h1 h2
          rw [char_toNat_inj h1, ih h2]
        · rw [hcu, hdu] at h
          simp only [List.cons_append, List.nil_append, List.cons.injEq] at h
          obtain ⟨h1, h2⟩ := h
          exfalso
          have hdle : d.toNat - 0x10000 ≤ 0xFFFFF := by omega
          have hq : (d.toNat - 0x10000) / 0x400 ≤ 0x3FF :=
            Nat.le_trans (Nat.div_le_div_right hdle) (by decide)
          obtain ⟨q, hq1⟩ : ∃ q, (d.toNat - 0x10000) / 0x400 = q := ⟨_, rfl⟩
          rw [hq1] at h1 hq
          clear hq1 ih h2 hcu hdu
          omega
      · rcases utf16Units_cases d with ⟨hd1, hdu, hd2⟩ | ⟨hd1, hd2, hdu⟩
        · rw [hcu, hdu] at h
          simp only [List.cons_append, List.nil_append, List.cons.injEq] at h
          obtain ⟨h1, h2⟩ := h
          exfalso
          have hcle : c.toNat - 0x10000 ≤ 0xFFFFF := by omega
          have hq : (c.toNat - 0x10000) / 0x400 ≤ 0x3FF :=
            Nat.le_trans (Nat.div_le_div_right hcle) (by decide)
          obtain ⟨q, hq1⟩ : ∃ q, (c.toNat - 0x10000) / 0x400 = q := ⟨_, rfl⟩
          rw [hq1] at h1 hq
          clear hq1 ih h2 hcu hdu
          omega
        · rw [hcu, hdu] at h
          simp only [List.cons_append, List.nil_append, List.cons.injEq] at h
          obtain ⟨h1, h2, h3⟩ := h
          have hcdm := Nat.div_add_mod (c.toNat - 0x10000) 0x400
          have hddm := Nat.div_add_mod (d.toNat - 0x10000) 0x400
          obtain ⟨qc, hqc⟩ : ∃ q, (c.toNat - 0x10000) / 0x400 = q := ⟨_, rfl⟩
          obtain ⟨rc, hrc⟩ : ∃ r, (c.toNat - 0x10000) % 0x400 = r := ⟨_, rfl⟩
          obtain ⟨qd, hqd⟩ : ∃ q, (d.toNat - 0x10000) / 0x400 = q := ⟨_, rfl⟩
          obtain ⟨rd, hrd⟩ : ∃ r, (d.toNat - 0x10000) % 0x400 = r := ⟨_, rfl⟩
          rw [hqc] at hcdm h1
          rw [hrc] at hcdm h2
          rw [hqd] at hddm h1
          rw [hrd] at hddm h2
          have hceq : c.toNat = d.toNat := by
            clear hqc hrc hqd hrd ih h3 hcu hdu
            omega
          rw [char_toNat_inj hceq, ih h3]

theorem utf16Key_inj {a b : String} (h : utf16Key a = utf16Key b) : a = b :=
  String.ext (utf16_flatten_inj h)

/-- C7: for any directory listing with pairwise-distinct names, the file
sequence that `buildIndex` renders (filtered, sorted with the default JS
comparator, reversed) is strictly descending in the UTF-16 code-unit
lexicographic order on filenames: every earlier entry's filename is
strictly greater than every later one's. -/
theorem buildIndex_strictly_descending (files : List String) (h : files.Nodup) :
    List.Pairwise jsGt (indexFiles (some files)) := by
  unfold indexFiles
  simp only [Option.getD_some]
  have hsorted : List.Sorted jsLe (List.insertionSort jsLe (files.filter logFilter)) :=
    List.sorted_insertionSort jsLe _
  have hnd : (List.insertionSort jsLe (files.filter logFilter)).Nodup :=
    ((List.perm_insertionSort jsLe (files.filter logFilter)).symm).nodup (h.filter _)
  rw [List.pairwise_reverse]
  have hcomb := List.Pairwise.and hsorted hnd
  refine hcomb.imp ?_
  intro a b hab2
  obtain ⟨hle, hne⟩ := hab2
  unfold jsLe at hle
  unfold jsGt
  cases hab : unitsLt (utf16Key a) (utf16Key b) with
  | true => rfl
  | false =>
    exfalso
    exact hne (utf16Key_inj (unitsLt_conn hab hle))

/-- Witness for C7 on a two-file listing. -/
theorem buildIndex_strictly_descending_witness :
    (["2024-01-14-a.md", "2024-01-15-b.md"] : List String).Nodup ∧
      List.Pairwise jsGt (indexFiles (some ["2024-01-14-a.md", "2024-01-15-b.md"])) :=
  ⟨by decide, buildIndex_strictly_descending ["2024-01-14-a.md", "2024-01-15-b.md"] (by decide)⟩
